import Mathlib

/-!
Shallow embedding of the record-extraction engine of `xml_to_csv_ftp.py`
(the `decode_xml` / `tag_value` / `all_tag_values` / `get_program_url` /
`get_points_forts` / `clean_text` / `build_program_arguments` /
`get_program_image` / `cut` / `parse_xml` functions), as Lean functions on
`List Char`.  Python strings are modelled as `List Char`; `str.find` /
slicing are modelled positionally; scanning loops are modelled with an
explicit fuel argument that strictly dominates the number of iterations
(each iteration advances the scan position by at least one character, so a
fuel of `length + 1` is never exhausted).  The regex class `\s` and
`str.strip` are modelled over the six ASCII whitespace characters.
Wall-clock fields (`Scraping_Date`) and the constant `Scraping_Status` /
`Error_Message` columns are omitted from the record model.
-/

set_option maxRecDepth 100000

namespace BI

/-- Characters of the Python regex class `\s` (ASCII range). -/
def isWS (ch : Char) : Bool :=
  ch = ' ' || ch = '\t' || ch = '\n' || ch = '\r' || ch = '\x0b' || ch = '\x0c'

/-- Model of `re.sub(r"\s+", " ", v)`: every maximal whitespace run
becomes a single space. -/
def wsCollapse : List Char → List Char
  | [] => []
  | [a] => if isWS a then [' '] else [a]
  | a :: b :: t =>
    if isWS a then
      if isWS b then wsCollapse (b :: t) else ' ' :: wsCollapse (b :: t)
    else a :: wsCollapse (b :: t)

def trimLeft (s : List Char) : List Char := s.dropWhile isWS

/-- Model of `str.strip()`. -/
def stripStr (s : List Char) : List Char :=
  (trimLeft (trimLeft s).reverse).reverse

/-- Scan a suffix of the document for the first match of `pat`, carrying
the absolute position `i` of the suffix head. -/
def findIdxAux (pat : List Char) : List Char → Nat → Option Nat
  | [], i => if pat.isPrefixOf [] then some i else none
  | a :: t, i =>
    if pat.isPrefixOf (a :: t) then some i else findIdxAux pat t (i + 1)

/-- Model of `str.find(pat, start)` (`none` plays `-1`). -/
def findFrom (pat s : List Char) (start : Nat) : Option Nat :=
  if s.length < start then none else findIdxAux pat (s.drop start) start

/-- Model of `str.replace(pat, rep)`: leftmost, non-overlapping, the
replacement text is not rescanned. -/
def replaceAllAux (pat rep : List Char) : Nat → List Char → List Char
  | 0, s => s
  | _ + 1, [] => []
  | f + 1, a :: t =>
    if !pat.isEmpty && pat.isPrefixOf (a :: t) then
      rep ++ replaceAllAux pat rep f ((a :: t).drop pat.length)
    else a :: replaceAllAux pat rep f t

def replaceAll (pat rep s : List Char) : List Char :=
  replaceAllAux pat rep s.length s

def cdataOpenL : List Char := "<![CDATA[".toList
def cdataCloseL : List Char := "]]>".toList

/-- Model of `re.sub(r"<!\[CDATA\[([\s\S]*?)\]\]>", r"\1", v)`: each
leftmost `<![CDATA[` with a following `]]>` is unwrapped (non-greedy, one
pass, the kept inner text is not rescanned). -/
def cdataStripAux : Nat → List Char → List Char
  | 0, s => s
  | _ + 1, [] => []
  | f + 1, a :: t =>
    if cdataOpenL.isPrefixOf (a :: t) then
      match findFrom cdataCloseL ((a :: t).drop 9) 0 with
      | some k =>
        ((a :: t).drop 9).take k ++ cdataStripAux f ((a :: t).drop (9 + k + 3))
      | none => a :: cdataStripAux f t
    else a :: cdataStripAux f t

def cdataStrip (s : List Char) : List Char := cdataStripAux s.length s

/-- `decode_xml` of the source: CDATA unwrap, then the five entity
replacements in source order (`&lt;`, `&gt;`, `&amp;`, `&quot;`,
`&#39;`), then whitespace collapse and strip. -/
def decode_xml (v : List Char) : List Char :=
  stripStr (wsCollapse
    (replaceAll "&#39;".toList "'".toList
      (replaceAll "&quot;".toList "\"".toList
        (replaceAll "&amp;".toList "&".toList
          (replaceAll "&gt;".toList ">".toList
            (replaceAll "&lt;".toList "<".toList (cdataStrip v)))))))

/-- Python slice `s[a:b]` (for the non-negative indices the source uses). -/
def slice (s : List Char) (a b : Nat) : List Char := (s.drop a).take (b - a)

def tagOpen (tag : List Char) : List Char := '<' :: tag ++ ['>']
def tagClose (tag : List Char) : List Char := '<' :: '/' :: tag ++ ['>']

/-- `tag_value` of the source. -/
def tag_value (xml tag : List Char) : List Char :=
  match findFrom (tagOpen tag) xml 0 with
  | none => []
  | some s =>
    match findFrom (tagClose tag) xml (s + (tagOpen tag).length) with
    | none => []
    | some e => decode_xml (slice xml (s + (tagOpen tag).length) e)

/-- Loop body of `all_tag_values`; the scan position advances past each
consumed close tag, so it grows by at least one per iteration. -/
def allTagValuesAux (xml o c : List Char) : Nat → Nat → List (List Char)
  | 0, _ => []
  | f + 1, p =>
    match findFrom o xml p with
    | none => []
    | some s =>
      match findFrom c xml (s + o.length) with
      | none => []
      | some e =>
        decode_xml (slice xml (s + o.length) e) ::
          allTagValuesAux xml o c f (e + c.length)

/-- `all_tag_values` of the source. -/
def all_tag_values (xml tag : List Char) : List (List Char) :=
  allTagValuesAux xml (tagOpen tag) (tagClose tag) (xml.length + 1) 0

example : decode_xml "  a&amp;b   c ".toList = "a&b c".toList := by decide
example : decode_xml "<![CDATA[ x ]]>".toList = "x".toList := by decide
example : tag_value "<A>x</A>".toList "A".toList = "x".toList := by decide
example : tag_value "<A>x".toList "A".toList = [] := by decide
example :
    all_tag_values "<A>x</A><A>y</A>".toList "A".toList
      = ["x".toList, "y".toList] := by decide

/-- One forward scan keeping the last admissible match, carrying the
absolute position `i` of the suffix head. -/
def rfindUpToAux (pat : List Char) (e : Nat) :
    List Char → Nat → Option Nat → Option Nat
  | [], i, best =>
    if decide (i + pat.length ≤ e) && pat.isPrefixOf [] then some i else best
  | a :: t, i, best =>
    rfindUpToAux pat e t (i + 1)
      (if decide (i + pat.length ≤ e) && pat.isPrefixOf (a :: t) then some i
       else best)

/-- Model of `str.rfind(pat, 0, e)`: the largest `i` with
`i + pat.length ≤ e` at which `pat` occurs. -/
def rfindUpTo (pat s : List Char) (e : Nat) : Option Nat :=
  rfindUpToAux pat e s 0 none

def markerL : List Char := "/programme-neuf-".toList
def urlOpenL : List Char := "<URL>".toList
def urlCloseL : List Char := "</URL>".toList

/-- `get_program_url` of the source: find the marker, search backwards for
the nearest preceding `<URL>`, then forwards for the next `</URL>`. -/
def get_program_url (p : List Char) : List Char :=
  match findFrom markerL p 0 with
  | none => []
  | some hit =>
    match rfindUpTo urlOpenL p hit with
    | none => []
    | some s =>
      match findFrom urlCloseL p (s + 5) with
      | none => []
      | some e => decode_xml (slice p (s + 5) e)

/-- `get_points_forts` of the source. -/
def get_points_forts (p : List Char) : List (List Char) :=
  match findFrom "<POINTS_FORTS>".toList p 0 with
  | none => []
  | some s =>
    match findFrom "</POINTS_FORTS>".toList p s with
    | none => []
    | some e => all_tag_values (slice p s (e + 15)) "PF".toList

/-- Model of `re.sub(r"<[^>]*>", " ", v)`: each `<`, shortest run of
non-`>` characters, `>` becomes one space; a `<` with no later `>` is kept. -/
def stripTagsAux : Nat → List Char → List Char
  | 0, s => s
  | _ + 1, [] => []
  | f + 1, a :: t =>
    if a = '<' then
      match t.findIdx? (fun ch => ch = '>') with
      | some k => ' ' :: stripTagsAux f (t.drop (k + 1))
      | none => a :: stripTagsAux f t
    else a :: stripTagsAux f t

def stripTags (s : List Char) : List Char := stripTagsAux s.length s

/-- `clean_text` of the source. -/
def clean_text (v : List Char) : List Char :=
  stripStr (wsCollapse (stripTags (decode_xml v)))

/-- Model of `sep.join(items)`. -/
def joinSep (sep : List Char) : List (List Char) → List Char
  | [] => []
  | [x] => x
  | x :: y :: t => x ++ sep ++ joinSep sep (y :: t)

def naL : List Char := "N/A".toList
def sepL : List Char := " | ".toList

/-- The candidate loop of `build_program_arguments`: first candidate with
a non-empty cleaned value wins, `"N/A"` if none. -/
def firstNonEmptyCleaned : List (List Char) → List Char
  | [] => naL
  | c :: t =>
    if (clean_text c).isEmpty then firstNonEmptyCleaned t else clean_text c

/-- `build_program_arguments` of the source (the Python binds
`pfs = get_points_forts(program_xml)` once; the extractor is pure, so
the repeated call is equivalent). -/
def build_program_arguments (p name : List Char) : List Char :=
  if (get_points_forts p).isEmpty then
    firstNonEmptyCleaned
      [tag_value p "PROMESSE_PROGRAMME".toList,
       tag_value p "DESCRIPTIF_COURT".toList,
       tag_value p "DESCRIPTIF_LONG".toList,
       tag_value p "DESCRIPTIF_CENTRE_D_APPEL".toList,
       name]
  else clean_text (joinSep sepL (get_points_forts p))

def noImageL : List Char := "NO IMAGE".toList
def perspOpenL : List Char := "<PERSPECTIVES>".toList
def perspCloseL : List Char := "</PERSPECTIVES>".toList
def urlTagL : List Char := "URL".toList

/-- `get_program_image` of the source: the `if urls and urls[0]` test
keeps only a non-empty FIRST collected URL value. -/
def get_program_image (p : List Char) : List Char :=
  match findFrom perspOpenL p 0 with
  | none => noImageL
  | some s =>
    match findFrom perspCloseL p s with
    | none => noImageL
    | some e =>
      match all_tag_values (slice p s (e + 15)) urlTagL with
      | [] => noImageL
      | u :: _ => if u.isEmpty then noImageL else u

/-- `cut` of the source: `v[:n] if len(v) > n else v`. -/
def cut (v : List Char) (n : Nat) : List Char :=
  if n < v.length then v.take n else v

structure Fields where
  ref : List Char
  name : List Char
  city : List Char
  zipCode : List Char
  department : List Char
  url : List Char
  arguments : List Char
  image : List Char
deriving DecidableEq, Repr

/-- The per-block field extraction of the `parse_xml` loop. -/
def extract_fields (p : List Char) : Fields :=
  let ref0 := tag_value p "REF_OPERATION".toList
  let ref := if ref0.isEmpty then tag_value p "NUMERO".toList else ref0
  let name := tag_value p "NOM".toList
  { ref := ref
    name := name
    city := tag_value p "VILLE".toList
    zipCode := tag_value p "CP".toList
    department := tag_value p "DEPARTEMENT".toList
    url := get_program_url p
    arguments := build_program_arguments p name
    image := get_program_image p }

structure ProgramRecord where
  url : List Char
  ref : List Char
  name : List Char
  city : List Char
  zipCode : List Char
  department : List Char
  arguments : List Char
  image : List Char
deriving DecidableEq, Repr

/-- The record-building dict literal of `parse_xml` (dates and the
constant status/error columns omitted). -/
def mkRec (f : Fields) : ProgramRecord :=
  { url := cut f.url 500
    ref := cut f.ref 50
    name := cut f.name 255
    city := cut f.city 100
    zipCode := cut f.zipCode 10
    department := cut f.department 2
    arguments := cut f.arguments 4000
    image := cut (if f.image.isEmpty then noImageL else f.image) 500 }

/-- Model of Python `pat in s`. -/
def hasSubstr (s pat : List Char) : Bool := (findFrom pat s 0).isSome

/-- The deduplication key `f"{program_ref}||{program_url}"`. -/
def keyOf (f : Fields) : List Char := f.ref ++ "||".toList ++ f.url

/-- The `not all([...])` required-field test of `parse_xml`. -/
def missingB (f : Fields) : Bool :=
  f.ref.isEmpty || f.name.isEmpty || f.city.isEmpty || f.zipCode.isEmpty ||
    f.department.isEmpty || f.url.isEmpty

structure PState where
  records : List ProgramRecord
  keys : List (List Char)
  scanned : Nat
  skipped : Nat
  dupSkipped : Nat
deriving Repr

/-- One iteration of the `parse_xml` loop on an already-segmented block:
the missing-field and marker filters share the single `skipped` counter,
the dedup dict is the `keys` list, acceptance appends the record. -/
def step (st : PState) (p : List Char) : PState :=
  let f := extract_fields p
  if missingB f then
    { st with scanned := st.scanned + 1, skipped := st.skipped + 1 }
  else if hasSubstr f.url markerL = false then
    { st with scanned := st.scanned + 1, skipped := st.skipped + 1 }
  else if keyOf f ∈ st.keys then
    { st with scanned := st.scanned + 1, dupSkipped := st.dupSkipped + 1 }
  else
    { st with
        scanned := st.scanned + 1
        records := st.records ++ [mkRec f]
        keys := st.keys ++ [keyOf f] }

def openBL : List Char := "<PROGRAMME>".toList
def closeBL : List Char := "</PROGRAMME>".toList

/-- The block-segmentation loop of `parse_xml`: next `<PROGRAMME>`, next
`</PROGRAMME>` after it, block is the inclusive span; an open marker with
no following close marker ends the scan silently. -/
def segBlocksAux (raw : List Char) : Nat → Nat → List (List Char)
  | 0, _ => []
  | f + 1, p =>
    match findFrom openBL raw p with
    | none => []
    | some ps =>
      match findFrom closeBL raw ps with
      | none => []
      | some pc => slice raw ps (pc + 12) :: segBlocksAux raw f (pc + 12)

def segBlocks (raw : List Char) : List (List Char) :=
  segBlocksAux raw (raw.length + 1) 0

/-- The `</REPONSE>` safety cut at the top of `parse_xml`. -/
def cutReponse (raw : List Char) : List Char :=
  match findFrom "</REPONSE>".toList raw 0 with
  | none => raw
  | some e => raw.take (e + 10)

def initState : PState := ⟨[], [], 0, 0, 0⟩

/-- `parse_xml` of the source, returning the records plus the printed
counters (`scanned`, `skipped`, `dup_skipped`; `len(programs)` is the
printed `Valid` count). -/
def parse_xml (raw : List Char) : PState :=
  (segBlocks (cutReponse raw)).foldl step initState

def sampleDoc : List Char :=
  ("<REPONSE><PROGRAMME><REF_OPERATION>R1</REF_OPERATION><NOM>Les Jardins" ++
   "</NOM><VILLE>Lyon</VILLE><CP>69000</CP><DEPARTEMENT>69</DEPARTEMENT>" ++
   "<URL>https://x.fr/programme-neuf-lyon</URL><POINTS_FORTS><PF>Piscine</PF>" ++
   "<PF>Garage</PF></POINTS_FORTS><PERSPECTIVES><URL>img1</URL></PERSPECTIVES>" ++
   "</PROGRAMME></REPONSE>").toList

example : (parse_xml sampleDoc).records.length = 1 := by decide
example : (parse_xml sampleDoc).scanned = 1 := by decide
example :
    (parse_xml sampleDoc).records.map (fun r => r.arguments)
      = ["Piscine | Garage".toList] := by decide
example :
    (parse_xml sampleDoc).records.map (fun r => r.image)
      = ["img1".toList] := by decide

/-! ### Semantics of the offset scan -/

/-- `pat` occurs as a literal substring of `s` at position `i`. -/
def occursAt (pat s : List Char) (i : Nat) : Prop :=
  pat.isPrefixOf (s.drop i) = true

instance occursAtDecidable (pat s : List Char) (i : Nat) :
    Decidable (occursAt pat s i) :=
  inferInstanceAs (Decidable (pat.isPrefixOf (s.drop i) = true))

theorem not_isPrefixOf_nil {pat : List Char} (hpat : pat ≠ []) :
    ¬ (pat.isPrefixOf ([] : List Char) = true) := by
  cases pat with
  | nil => exact absurd rfl hpat
  | cons a t => simp [List.isPrefixOf]

theorem findIdxAux_some {pat : List Char} :
    ∀ (u : List Char) (i j : Nat), findIdxAux pat u i = some j →
      i ≤ j ∧ j ≤ i + u.length ∧ pat.isPrefixOf (u.drop (j - i)) = true ∧
        ∀ m, i ≤ m → m < j → ¬ (pat.isPrefixOf (u.drop (m - i)) = true)
  | [], i, j, h => by
    by_cases hp : pat.isPrefixOf ([] : List Char) = true
    · simp only [findIdxAux, hp, if_true, Option.some.injEq] at h
      subst h
      exact ⟨Nat.le_refl _, by simp, by simpa using hp, fun m h1 h2 => by omega⟩
    · simp [findIdxAux, hp] at h
  | a :: t, i, j, h => by
    by_cases hp : pat.isPrefixOf (a :: t) = true
    · simp only [findIdxAux, hp, if_true, Option.some.injEq] at h
      subst h
      exact ⟨Nat.le_refl _, by simp, by simpa using hp, fun m h1 h2 => by omega⟩
    · simp only [findIdxAux, hp, if_false, Bool.false_eq_true] at h
      obtain ⟨h1, h2, h3, h4⟩ := findIdxAux_some t (i + 1) j h
      have hji : j - i = (j - (i + 1)) + 1 := by omega
      refine ⟨by omega, by simp; omega, ?_, ?_⟩
      · rw [hji, List.drop_succ_cons]; exact h3
      · intro m hm1 hm2
        rcases Nat.eq_or_lt_of_le hm1 with hEq | hLt
        · subst hEq; simpa using hp
        · have hmi : m - i = (m - (i + 1)) + 1 := by omega
          rw [hmi, List.drop_succ_cons]
          exact h4 m hLt hm2

theorem findIdxAux_none {pat : List Char} (hpat : pat ≠ []) :
    ∀ (u : List Char) (i : Nat), findIdxAux pat u i = none →
      ∀ m, i ≤ m → ¬ (pat.isPrefixOf (u.drop (m - i)) = true)
  | [], i, _, m, _ => by
    simpa using not_isPrefixOf_nil hpat
  | a :: t, i, h, m, him => by
    by_cases hp : pat.isPrefixOf (a :: t) = true
    · simp [findIdxAux, hp] at h
    · simp only [findIdxAux, hp, if_false, Bool.false_eq_true] at h
      rcases Nat.eq_or_lt_of_le him with hEq | hLt
      · subst hEq; simpa using hp
      · have hmi : m - i = (m - (i + 1)) + 1 := by omega
        rw [hmi, List.drop_succ_cons]
        exact findIdxAux_none hpat t (i + 1) h m hLt

theorem findFrom_some {pat s : List Char} {start j : Nat}
    (h : findFrom pat s start = some j) :
    start ≤ j ∧ j ≤ s.length ∧ occursAt pat s j ∧
      ∀ m, start ≤ m → m < j → ¬ occursAt pat s m := by
  unfold findFrom at h
  by_cases hs : s.length < start
  · simp [hs] at h
  · simp only [hs, if_false] at h
    obtain ⟨h1, h2, h3, h4⟩ := findIdxAux_some (s.drop start) start j h
    have hlen : (s.drop start).length = s.length - start := by simp
    have hdd : ∀ m, start ≤ m → (s.drop start).drop (m - start) = s.drop m := by
      intro m hm
      rw [List.drop_drop]
      congr 1
      omega
    refine ⟨h1, by omega, ?_, ?_⟩
    · unfold occursAt
      rw [← hdd j h1]
      exact h3
    · intro m hm1 hm2
      unfold occursAt
      rw [← hdd m hm1]
      exact h4 m hm1 hm2

theorem findFrom_none {pat s : List Char} {start : Nat} (hpat : pat ≠ [])
    (h : findFrom pat s start = none) :
    ∀ m, start ≤ m → ¬ occursAt pat s m := by
  unfold findFrom at h
  by_cases hs : s.length < start
  · intro m him hocc
    unfold occursAt at hocc
    rw [List.drop_of_length_le (by omega)] at hocc
    exact not_isPrefixOf_nil hpat hocc
  · simp only [hs, if_false] at h
    intro m him hocc
    refine findIdxAux_none hpat (s.drop start) start h m him ?_
    unfold occursAt at hocc
    rw [List.drop_drop]
    have heq : start + (m - start) = m := by omega
    rw [heq]
    exact hocc

theorem occursAt_length {pat s : List Char} {i : Nat} (hpat : pat ≠ [])
    (h : occursAt pat s i) : i + pat.length ≤ s.length := by
  unfold occursAt at h
  have hle := (List.isPrefixOf_iff_prefix.mp h).length_le
  rw [List.length_drop] at hle
  have hpos : 0 < pat.length := List.length_pos.mpr hpat
  omega

theorem findFrom_eq_some {pat s : List Char} {start j : Nat} (hpat : pat ≠ [])
    (h1 : start ≤ j) (h2 : occursAt pat s j)
    (h3 : ∀ m, start ≤ m → m < j → ¬ occursAt pat s m) :
    findFrom pat s start = some j := by
  cases hE : findFrom pat s start with
  | none => exact absurd h2 (findFrom_none hpat hE j h1)
  | some j' =>
    obtain ⟨g1, g2, g3, g4⟩ := findFrom_some hE
    rcases Nat.lt_trichotomy j' j with hlt | hEq | hgt
    · exact absurd g3 (h3 j' g1 hlt)
    · rw [hEq]
    · exact absurd h2 (g4 j h1 hgt)

theorem findFrom_eq_none {pat s : List Char} {start : Nat}
    (h : ∀ m, start ≤ m → ¬ occursAt pat s m) :
    findFrom pat s start = none := by
  cases hE : findFrom pat s start with
  | none => rfl
  | some j =>
    obtain ⟨g1, _, g3, _⟩ := findFrom_some hE
    exact absurd g3 (h j g1)

/-! ### Run-level characterization of the parse loop -/

/-- A block passes the required-field filter and the marker filter. -/
def validB (p : List Char) : Bool :=
  !missingB (extract_fields p) && hasSubstr (extract_fields p).url markerL

/-- First-occurrence deduplication of a block list by the pre-truncation
composite key, relative to an already-seen key set. -/
def dedupFirst (seen : List (List Char)) : List (List Char) → List (List Char)
  | [] => []
  | b :: t =>
    if keyOf (extract_fields b) ∈ seen then dedupFirst seen t
    else b :: dedupFirst (seen ++ [keyOf (extract_fields b)]) t

theorem step_invalid {st : PState} {b : List Char} (hv : validB b = false) :
    step st b =
      ⟨st.records, st.keys, st.scanned + 1, st.skipped + 1, st.dupSkipped⟩ := by
  unfold validB at hv
  by_cases hm : missingB (extract_fields b) = true
  · simp [step, hm]
  · simp only [hm, Bool.not_false, Bool.true_and,
      Bool.not_eq_true] at hv
    simp [step, hm, hv]

theorem valid_parts {b : List Char} (hv : validB b = true) :
    missingB (extract_fields b) = false ∧
      hasSubstr (extract_fields b).url markerL = true := by
  unfold validB at hv
  constructor
  · rcases Bool.and_eq_true_iff.mp hv with ⟨h1, _⟩
    simpa using h1
  · exact (Bool.and_eq_true_iff.mp hv).2

theorem step_dup {st : PState} {b : List Char} (hv : validB b = true)
    (hk : keyOf (extract_fields b) ∈ st.keys) :
    step st b =
      ⟨st.records, st.keys, st.scanned + 1, st.skipped, st.dupSkipped + 1⟩ := by
  obtain ⟨hm, hu⟩ := valid_parts hv
  simp [step, hm, hu, hk]

theorem step_accept {st : PState} {b : List Char} (hv : validB b = true)
    (hk : keyOf (extract_fields b) ∉ st.keys) :
    step st b =
      ⟨st.records ++ [mkRec (extract_fields b)],
       st.keys ++ [keyOf (extract_fields b)],
       st.scanned + 1, st.skipped, st.dupSkipped⟩ := by
  obtain ⟨hm, hu⟩ := valid_parts hv
  simp [step, hm, hu, hk]

theorem foldStep (bs : List (List Char)) :
    ∀ st : PState,
      (bs.foldl step st).records =
          st.records ++
            (dedupFirst st.keys (bs.filter validB)).map
              (fun b => mkRec (extract_fields b)) ∧
      (bs.foldl step st).keys =
          st.keys ++
            (dedupFirst st.keys (bs.filter validB)).map
              (fun b => keyOf (extract_fields b)) ∧
      (bs.foldl step st).scanned = st.scanned + bs.length ∧
      (bs.foldl step st).skipped =
          st.skipped + (bs.filter (fun b => !validB b)).length ∧
      (bs.foldl step st).dupSkipped +
          (dedupFirst st.keys (bs.filter validB)).length =
        st.dupSkipped + (bs.filter validB).length := by
  induction bs with
  | nil => intro st; simp [dedupFirst]
  | cons b t ih =>
    intro st
    by_cases hv : validB b = true
    · have hfv : (b :: t).filter validB = b :: t.filter validB := by
        simp [List.filter_cons, hv]
      have hfn : (b :: t).filter (fun x => !validB x) =
          t.filter (fun x => !validB x) := by
        simp [List.filter_cons, hv]
      by_cases hk : keyOf (extract_fields b) ∈ st.keys
      · have hd : dedupFirst st.keys (b :: t.filter validB) =
            dedupFirst st.keys (t.filter validB) := by
          rw [dedupFirst, if_pos hk]
        obtain ⟨r1, r2, r3, r4, r5⟩ :=
          ih ⟨st.records, st.keys, st.scanned + 1, st.skipped,
              st.dupSkipped + 1⟩
        dsimp only at r1 r2 r3 r4 r5
        rw [List.foldl_cons, step_dup hv hk, hfv, hfn, hd]
        exact ⟨r1, r2, by rw [r3]; simp only [List.length_cons]; omega, r4,
          by rw [List.length_cons]; omega⟩
      · have hd : dedupFirst st.keys (b :: t.filter validB) =
            b :: dedupFirst (st.keys ++ [keyOf (extract_fields b)])
              (t.filter validB) := by
          rw [dedupFirst, if_neg hk]
        obtain ⟨r1, r2, r3, r4, r5⟩ :=
          ih ⟨st.records ++ [mkRec (extract_fields b)],
              st.keys ++ [keyOf (extract_fields b)],
              st.scanned + 1, st.skipped, st.dupSkipped⟩
        dsimp only at r1 r2 r3 r4 r5
        rw [List.foldl_cons, step_accept hv hk, hfv, hfn, hd]
        refine ⟨?_, ?_, by rw [r3]; simp only [List.length_cons]; omega, r4, ?_⟩
        · rw [r1]; simp
        · rw [r2]; simp
        · rw [List.length_cons, List.length_cons]
          omega
    · have hv' : validB b = false := by simpa using hv
      have hfv : (b :: t).filter validB = t.filter validB := by
        simp [List.filter_cons, hv']
      have hfn : (b :: t).filter (fun x => !validB x) =
          b :: t.filter (fun x => !validB x) := by
        simp [List.filter_cons, hv']
      obtain ⟨r1, r2, r3, r4, r5⟩ :=
        ih ⟨st.records, st.keys, st.scanned + 1, st.skipped + 1, st.dupSkipped⟩
      dsimp only at r1 r2 r3 r4 r5
      rw [List.foldl_cons, step_invalid hv', hfv, hfn]
      exact ⟨r1, r2, by rw [r3]; simp only [List.length_cons]; omega,
        by rw [r4]; simp only [List.length_cons]; omega, r5⟩

/-- The blocks of a run that pass both per-block filters, in scan order. -/
def validBlocks (raw : List Char) : List (List Char) :=
  (segBlocks (cutReponse raw)).filter validB

/-- The filter-passing blocks that survive first-occurrence dedup. -/
def keptBlocks (raw : List Char) : List (List Char) :=
  dedupFirst [] (validBlocks raw)

theorem parse_xml_run (raw : List Char) :
    (parse_xml raw).records =
        (keptBlocks raw).map (fun b => mkRec (extract_fields b)) ∧
    (parse_xml raw).keys =
        (keptBlocks raw).map (fun b => keyOf (extract_fields b)) ∧
    (parse_xml raw).scanned = (segBlocks (cutReponse raw)).length ∧
    (parse_xml raw).skipped =
        ((segBlocks (cutReponse raw)).filter (fun b => !validB b)).length ∧
    (parse_xml raw).dupSkipped + (keptBlocks raw).length =
        (validBlocks raw).length := by
  have h := foldStep (segBlocks (cutReponse raw)) initState
  simpa [parse_xml, initState, validBlocks, keptBlocks] using h

theorem dedupFirst_facts :
    ∀ (bs seen : List (List Char)),
      ((dedupFirst seen bs).map (fun b => keyOf (extract_fields b))).Nodup ∧
      ∀ k ∈ (dedupFirst seen bs).map (fun b => keyOf (extract_fields b)),
        k ∉ seen
  | [], seen => by simp [dedupFirst]
  | b :: t, seen => by
    by_cases hk : keyOf (extract_fields b) ∈ seen
    · rw [dedupFirst, if_pos hk]
      exact dedupFirst_facts t seen
    · rw [dedupFirst, if_neg hk]
      obtain ⟨h1, h2⟩ := dedupFirst_facts t (seen ++ [keyOf (extract_fields b)])
      constructor
      · simp only [List.map_cons, List.nodup_cons]
        refine ⟨?_, h1⟩
        intro hmem
        have := h2 _ hmem
        simp at this
      · intro k hkmem
        simp only [List.map_cons, List.mem_cons] at hkmem
        rcases hkmem with hEq | hmem
        · rw [hEq]; exact hk
        · intro hin
          exact h2 k hmem (by simp [hin])

theorem dedupFirst_sublist :
    ∀ (bs seen : List (List Char)), (dedupFirst seen bs).Sublist bs
  | [], _ => by simp [dedupFirst]
  | b :: t, seen => by
    by_cases hk : keyOf (extract_fields b) ∈ seen
    · rw [dedupFirst, if_pos hk]
      exact (dedupFirst_sublist t seen).trans (List.sublist_cons_self b t)
    · rw [dedupFirst, if_neg hk]
      exact (dedupFirst_sublist t _).cons₂ b

theorem mem_records {raw : List Char} {rec : ProgramRecord}
    (h : rec ∈ (parse_xml raw).records) :
    ∃ b, b ∈ validBlocks raw ∧ rec = mkRec (extract_fields b) := by
  obtain ⟨r1, -, -, -, -⟩ := parse_xml_run raw
  rw [r1] at h
  obtain ⟨b, hb, hEq⟩ := List.mem_map.mp h
  rw [keptBlocks] at hb
  exact ⟨b, (dedupFirst_sublist _ _).subset hb, hEq.symm⟩

theorem cut_eq_self {v : List Char} {n : Nat} (h : v.length ≤ n) :
    cut v n = v := by
  unfold cut
  rw [if_neg (by omega)]

theorem cut_long {v : List Char} {n : Nat} (h : n < v.length) :
    (cut v n).length = n ∧ cut v n = v.take n := by
  unfold cut
  rw [if_pos h]
  exact ⟨by rw [List.length_take]; omega, rfl⟩

theorem cut_length_le (v : List Char) (n : Nat) : (cut v n).length ≤ n ∨ cut v n = v := by
  by_cases h : n < v.length
  · exact Or.inl (cut_long h).1.le
  · exact Or.inr (cut_eq_self (by omega))

theorem mkRec_bounds (f : Fields) :
    (mkRec f).url.length ≤ 500 ∧ (mkRec f).ref.length ≤ 50 ∧
    (mkRec f).name.length ≤ 255 ∧ (mkRec f).city.length ≤ 100 ∧
    (mkRec f).zipCode.length ≤ 10 ∧ (mkRec f).department.length ≤ 2 ∧
    (mkRec f).arguments.length ≤ 4000 ∧ (mkRec f).image.length ≤ 500 := by
  have hc : ∀ (v : List Char) (n : Nat), (cut v n).length ≤ max n v.length := by
    intro v n
    unfold cut
    split
    · rw [List.length_take]; omega
    · omega
  have hcut : ∀ (v : List Char) (n : Nat), v.length ≤ n → (cut v n).length ≤ n := by
    intro v n h
    rw [cut_eq_self h]; exact h
  have h : ∀ (v : List Char) (n : Nat), (cut v n).length ≤ n := by
    intro v n
    by_cases hl : n < v.length
    · exact (cut_long hl).1.le
    · exact hcut v n (by omega)
  exact ⟨h _ _, h _ _, h _ _, h _ _, h _ _, h _ _, h _ _, h _ _⟩

/-- C5: every emitted record field is a prefix cut at the fixed maxima:
longer values are cut to exactly the maximum, values at or below the
maximum are emitted unchanged, and each record field is `cut` of the
extracted field at the documented constant. -/
theorem claim_C5 :
    (∀ (v : List Char) (n : Nat), v.length ≤ n → cut v n = v) ∧
    (∀ (v : List Char) (n : Nat), n < v.length →
      (cut v n).length = n ∧ cut v n = v.take n) ∧
    (∀ (raw : List Char) (rec : ProgramRecord), rec ∈ (parse_xml raw).records →
      ∃ f : Fields, rec = mkRec f ∧
        rec.url = cut f.url 500 ∧ rec.ref = cut f.ref 50 ∧
        rec.name = cut f.name 255 ∧ rec.city = cut f.city 100 ∧
        rec.zipCode = cut f.zipCode 10 ∧ rec.department = cut f.department 2 ∧
        rec.arguments = cut f.arguments 4000 ∧
        rec.image = cut (if f.image.isEmpty then noImageL else f.image) 500 ∧
        rec.url.length ≤ 500 ∧ rec.ref.length ≤ 50 ∧ rec.name.length ≤ 255 ∧
        rec.city.length ≤ 100 ∧ rec.zipCode.length ≤ 10 ∧
        rec.department.length ≤ 2 ∧ rec.arguments.length ≤ 4000 ∧
        rec.image.length ≤ 500) := by
  refine ⟨fun v n h => cut_eq_self h, fun v n h => cut_long h, ?_⟩
  intro raw rec h
  obtain ⟨b, -, hEq⟩ := mem_records h
  refine ⟨extract_fields b, hEq, ?_⟩
  obtain ⟨b1, b2, b3, b4, b5, b6, b7, b8⟩ := mkRec_bounds (extract_fields b)
  rw [hEq]
  exact ⟨rfl, rfl, rfl, rfl, rfl, rfl, rfl, rfl,
    b1, b2, b3, b4, b5, b6, b7, b8⟩

/-- C5 witness: the cut branches at concrete inputs, and the third
conjunct at the sample document's record. -/
theorem claim_C5_witness :
    cut "ab".toList 5 = "ab".toList ∧
    (cut (List.replicate 600 'a') 500).length = 500 ∧
    (∃ f : Fields,
      (⟨"https://x.fr/programme-neuf-lyon".toList, "R1".toList,
        "Les Jardins".toList, "Lyon".toList, "69000".toList, "69".toList,
        "Piscine | Garage".toList, "img1".toList⟩ : ProgramRecord) = mkRec f ∧
      ("https://x.fr/programme-neuf-lyon".toList : List Char) = cut f.url 500 ∧
      ("R1".toList : List Char) = cut f.ref 50 ∧
      ("Les Jardins".toList : List Char) = cut f.name 255 ∧
      ("Lyon".toList : List Char) = cut f.city 100 ∧
      ("69000".toList : List Char) = cut f.zipCode 10 ∧
      ("69".toList : List Char) = cut f.department 2 ∧
      ("Piscine | Garage".toList : List Char) = cut f.arguments 4000 ∧
      ("img1".toList : List Char) =
          cut (if f.image.isEmpty then noImageL else f.image) 500 ∧
      ("https://x.fr/programme-neuf-lyon".toList : List Char).length ≤ 500 ∧
      ("R1".toList : List Char).length ≤ 50 ∧
      ("Les Jardins".toList : List Char).length ≤ 255 ∧
      ("Lyon".toList : List Char).length ≤ 100 ∧
      ("69000".toList : List Char).length ≤ 10 ∧
      ("69".toList : List Char).length ≤ 2 ∧
      ("Piscine | Garage".toList : List Char).length ≤ 4000 ∧
      ("img1".toList : List Char).length ≤ 500) := by
  refine ⟨claim_C5.1 "ab".toList 5 (by decide),
    (claim_C5.2.1 (List.replicate 600 'a') 500 (by simp)).1,
    ?_⟩
  have hmem :
      (⟨"https://x.fr/programme-neuf-lyon".toList, "R1".toList,
        "Les Jardins".toList, "Lyon".toList, "69000".toList, "69".toList,
        "Piscine | Garage".toList, "img1".toList⟩ : ProgramRecord) ∈
        (parse_xml sampleDoc).records := by decide
  exact claim_C5.2.2 sampleDoc _ hmem

/-! ### C1: deduplication -/

def refAL : List Char := List.replicate 50 'b' ++ ['X']
def refBL : List Char := List.replicate 50 'b' ++ ['Y']

/-- Three blocks: A and B have refs that differ only in their 51st
character (identical after the 50-character ref cut) and share a URL; C
repeats A's ref and URL but has no name tag. -/
def docC1 : List Char :=
  "<PROGRAMME><REF_OPERATION>".toList ++ refAL ++
    ("</REF_OPERATION><NOM>n</NOM><VILLE>v</VILLE><CP>z</CP>" ++
     "<DEPARTEMENT>d</DEPARTEMENT><URL>u/programme-neuf-1</URL>" ++
     "</PROGRAMME>").toList ++
  "<PROGRAMME><REF_OPERATION>".toList ++ refBL ++
    ("</REF_OPERATION><NOM>n</NOM><VILLE>v</VILLE><CP>z</CP>" ++
     "<DEPARTEMENT>d</DEPARTEMENT><URL>u/programme-neuf-1</URL>" ++
     "</PROGRAMME>").toList ++
  "<PROGRAMME><REF_OPERATION>".toList ++ refAL ++
    ("</REF_OPERATION><VILLE>v</VILLE><CP>z</CP>" ++
     "<DEPARTEMENT>d</DEPARTEMENT><URL>u/programme-neuf-1</URL>" ++
     "</PROGRAMME>").toList

/-- C1 counterexample: the emitted records of `docC1` have colliding
post-truncation `(ref, url)` keys (so the emitted composite key is not
unique across the output), and two scanned blocks share a pre-truncation
key while `duplicatesSkipped` stays 0 (the later occurrence is dropped by
the missing-field filter, not counted as duplicate). -/
theorem claim_C1_cex :
    ¬ (((parse_xml docC1).records.map
          (fun r => r.ref ++ "||".toList ++ r.url)).Nodup) ∧
    ¬ (((segBlocks (cutReponse docC1)).map
          (fun b => keyOf (extract_fields b))).Nodup) ∧
    (parse_xml docC1).dupSkipped = 0 ∧
    (parse_xml docC1).records.length = 2 := by decide

/-- C1 amended: among the blocks that pass the required-field and marker
filters, keyed by the PRE-truncation `ref + "||" + url`, exactly the
first occurrence of each key is emitted (in scan order, never
overwritten), the pre-truncation keys of the emitted records are
pairwise distinct, and every later filter-passing occurrence of a seen
key increments `duplicatesSkipped` (post-truncation keys of emitted
records may still collide). -/
theorem claim_C1 (raw : List Char) :
    (parse_xml raw).records =
        (keptBlocks raw).map (fun b => mkRec (extract_fields b)) ∧
    ((keptBlocks raw).map (fun b => keyOf (extract_fields b))).Nodup ∧
    (parse_xml raw).dupSkipped + (keptBlocks raw).length =
        (validBlocks raw).length :=
  ⟨(parse_xml_run raw).1, (dedupFirst_facts _ _).1,
    (parse_xml_run raw).2.2.2.2⟩

/-! ### C4: marker containment -/

/-- A block whose derived URL is 507 characters long, with the business
marker starting at character 490 — entirely legal for the filters, but
truncated away by the 500-character cut. -/
def docC4 : List Char :=
  ("<PROGRAMME><REF_OPERATION>r</REF_OPERATION><NOM>n</NOM>" ++
   "<VILLE>v</VILLE><CP>z</CP><DEPARTEMENT>d</DEPARTEMENT><URL>").toList ++
  List.replicate 490 'a' ++ "/programme-neuf-x</URL></PROGRAMME>".toList

/-- C4 counterexample: `docC4`'s single emitted record has a `url` field
that does NOT contain the business marker — the containment check runs
on the pre-truncation url, and the 500-character cut removes the
marker. -/
theorem claim_C4_cex :
    (parse_xml docC4).records.length = 1 ∧
    (parse_xml docC4).records.map (fun r => hasSubstr r.url markerL)
      = [false] := by decide

/-- C4 amended: every emitted record's url is the 500-character prefix
cut of a derived url that does contain the marker (the filter runs
before truncation), and the emitted url still contains the marker
whenever the derived url fits in 500 characters. -/
theorem claim_C4 (raw : List Char) (rec : ProgramRecord)
    (h : rec ∈ (parse_xml raw).records) :
    ∃ u : List Char, hasSubstr u markerL = true ∧ rec.url = cut u 500 ∧
      (u.length ≤ 500 → hasSubstr rec.url markerL = true) := by
  obtain ⟨b, hb, hEq⟩ := mem_records h
  have hv : validB b = true := (List.mem_filter.mp hb).2
  have hu : hasSubstr (extract_fields b).url markerL = true := (valid_parts hv).2
  refine ⟨(extract_fields b).url, hu, by rw [hEq]; rfl, ?_⟩
  intro hlen
  rw [hEq]
  show hasSubstr (cut (extract_fields b).url 500) markerL = true
  rw [cut_eq_self hlen]
  exact hu

/-- C4 witness: the amended statement at the sample document's record,
whose short url keeps the marker in the output. -/
theorem claim_C4_witness :
    ∃ u : List Char, hasSubstr u markerL = true ∧
      ("https://x.fr/programme-neuf-lyon".toList : List Char) = cut u 500 ∧
      (u.length ≤ 500 →
        hasSubstr "https://x.fr/programme-neuf-lyon".toList markerL = true) := by
  have hmem :
      (⟨"https://x.fr/programme-neuf-lyon".toList, "R1".toList,
        "Les Jardins".toList, "Lyon".toList, "69000".toList, "69".toList,
        "Piscine | Garage".toList, "img1".toList⟩ : ProgramRecord) ∈
        (parse_xml sampleDoc).records := by decide
  exact claim_C4 sampleDoc _ hmem

/-! ### C8: counters -/

theorem filter_partition (bs : List (List Char)) :
    (bs.filter validB).length + (bs.filter (fun b => !validB b)).length
      = bs.length := by
  induction bs with
  | nil => simp
  | cons b t ih =>
    by_cases hv : validB b = true
    · simp only [List.filter_cons, hv, Bool.not_true, if_true,
        Bool.false_eq_true, if_false, List.length_cons]
      omega
    · have hv' : validB b = false := by simpa using hv
      simp only [List.filter_cons, hv', Bool.not_false, if_true,
        Bool.false_eq_true, if_false, List.length_cons]
      omega

theorem skip_split (bs : List (List Char)) :
    (bs.filter (fun b => !validB b)).length =
      (bs.filter (fun b => missingB (extract_fields b))).length +
        (bs.filter (fun b => !missingB (extract_fields b) &&
          !hasSubstr (extract_fields b).url markerL)).length := by
  induction bs with
  | nil => simp
  | cons b t ih =>
    by_cases hm : missingB (extract_fields b) = true
    · have hv : validB b = false := by simp [validB, hm]
      simp only [List.filter_cons, hv, hm, Bool.not_false, Bool.not_true,
        Bool.false_and, if_true, Bool.false_eq_true, if_false,
        List.length_cons]
      omega
    · have hm' : missingB (extract_fields b) = false := by simpa using hm
      by_cases hu : hasSubstr (extract_fields b).url markerL = true
      · have hv : validB b = true := by simp [validB, hm', hu]
        simp only [List.filter_cons, hv, hm', hu, Bool.not_true,
          Bool.not_false, Bool.true_and, Bool.false_eq_true, if_false,
          List.length_cons]
        exact ih
      · have hu' : hasSubstr (extract_fields b).url markerL = false := by
          simpa using hu
        have hv : validB b = false := by simp [validB, hu']
        simp only [List.filter_cons, hv, hm', hu', Bool.not_false,
          Bool.true_and, if_true, Bool.false_eq_true, if_false,
          List.length_cons]
        omega

/-- C8 counterexample: `docC8`'s single block has every required field
non-empty, yet the engine's only skip counter increments — the code
keeps one combined `skipped` counter for both the missing-field and the
marker-absent rejections, not a separate `skippedMissingField`. -/
def docC8 : List Char :=
  ("<PROGRAMME><REF_OPERATION>r</REF_OPERATION><NOM>n</NOM>" ++
   "<VILLE>v</VILLE><CP>z</CP><DEPARTEMENT>d</DEPARTEMENT>" ++
   "<URL>http://a</URL>x/programme-neuf-y</PROGRAMME>").toList

theorem claim_C8_cex :
    (parse_xml docC8).skipped = 1 ∧
    ((segBlocks (cutReponse docC8)).filter
        (fun b => missingB (extract_fields b))).length = 0 ∧
    (parse_xml docC8).dupSkipped = 0 ∧
    (parse_xml docC8).records.length = 0 ∧
    (parse_xml docC8).scanned = 1 := by decide

/-- C8 amended: the engine maintains `blocksScanned`, the accepted count
(the record list length), ONE combined `skipped` counter covering both
the missing-field and the marker-absent rejections, and
`duplicatesSkipped`; exactly one outcome is counted per block, the
combined skip counter decomposes into the two rejection reasons, and a
block with a missing required field leaves the records untouched while
incrementing the combined counter by exactly 1. -/
theorem claim_C8 (raw : List Char) :
    (parse_xml raw).scanned = (segBlocks (cutReponse raw)).length ∧
    (parse_xml raw).records.length + (parse_xml raw).skipped +
        (parse_xml raw).dupSkipped = (parse_xml raw).scanned ∧
    (parse_xml raw).skipped =
        ((segBlocks (cutReponse raw)).filter
            (fun b => missingB (extract_fields b))).length +
          ((segBlocks (cutReponse raw)).filter
            (fun b => !missingB (extract_fields b) &&
              !hasSubstr (extract_fields b).url markerL)).length ∧
    ∀ (st : PState) (b : List Char), missingB (extract_fields b) = true →
      (step st b).records = st.records ∧
      (step st b).skipped = st.skipped + 1 ∧
      (step st b).dupSkipped = st.dupSkipped ∧
      (step st b).scanned = st.scanned + 1 := by
  obtain ⟨r1, r2, r3, r4, r5⟩ := parse_xml_run raw
  refine ⟨r3, ?_, ?_, ?_⟩
  · have hlen : (parse_xml raw).records.length = (keptBlocks raw).length := by
      rw [r1, List.length_map]
    have hpart := filter_partition (segBlocks (cutReponse raw))
    have hvb : (validBlocks raw).length =
        ((segBlocks (cutReponse raw)).filter validB).length := rfl
    omega
  · rw [r4]
    exact skip_split _
  · intro st b hm
    have hv : validB b = false := by simp [validB, hm]
    rw [step_invalid hv]
    exact ⟨rfl, rfl, rfl, rfl⟩

/-- C8 witness: the per-block clause at a concrete field-less block. -/
theorem claim_C8_witness :
    (step initState "<PROGRAMME></PROGRAMME>".toList).records
        = initState.records ∧
    (step initState "<PROGRAMME></PROGRAMME>".toList).skipped
        = initState.skipped + 1 ∧
    (step initState "<PROGRAMME></PROGRAMME>".toList).dupSkipped
        = initState.dupSkipped ∧
    (step initState "<PROGRAMME></PROGRAMME>".toList).scanned
        = initState.scanned + 1 :=
  (claim_C8 []).2.2.2 initState "<PROGRAMME></PROGRAMME>".toList (by decide)

/-! ### C7: silent stop at an unmatched tail -/

/-- One complete block followed by an open marker with no close marker. -/
def docC7 : List Char :=
  ("<PROGRAMME><REF_OPERATION>r</REF_OPERATION><NOM>n</NOM>" ++
   "<VILLE>v</VILLE><CP>z</CP><DEPARTEMENT>d</DEPARTEMENT>" ++
   "<URL>u/programme-neuf-1</URL></PROGRAMME>" ++
   "<PROGRAMME><NOM>tail</NOM>").toList

/-- C7: when the next open marker has no following close marker the
segmentation loop returns nothing further (stops silently, the tail is
dropped, no error value exists); `blocksScanned` always equals the
number of fully-closed segmented blocks; on the concrete document with
an unmatched tail the counters reflect only the closed block. -/
theorem claim_C7 :
    (∀ (raw : List Char) (f p s : Nat), findFrom openBL raw p = some s →
        findFrom closeBL raw s = none → segBlocksAux raw f p = []) ∧
    (∀ raw : List Char,
        (parse_xml raw).scanned = (segBlocks (cutReponse raw)).length) ∧
    (parse_xml docC7).scanned = 1 ∧
    (parse_xml docC7).records.length = 1 := by
  refine ⟨?_, fun raw => (parse_xml_run raw).2.2.1, by decide, by decide⟩
  intro raw f p s h1 h2
  cases f with
  | zero => rfl
  | succ f => simp [segBlocksAux, h1, h2]

/-- C7 witness: the silent-stop clause at a concrete unmatched tail. -/
theorem claim_C7_witness : segBlocksAux "<PROGRAMME>abc".toList 15 0 = [] :=
  claim_C7.1 "<PROGRAMME>abc".toList 15 0 0 (by decide) (by decide)

/-! ### C10: termination and scan-advancement bounds -/

theorem allTagValuesAux_length (xml o c : List Char) (ho : o ≠ []) (hc : c ≠ []) :
    ∀ (f p : Nat), (allTagValuesAux xml o c f p).length ≤ xml.length - p := by
  intro f
  induction f with
  | zero => intro p; simp [allTagValuesAux]
  | succ f ih =>
    intro p
    cases h1 : findFrom o xml p with
    | none => simp [allTagValuesAux, h1]
    | some s =>
      cases h2 : findFrom c xml (s + o.length) with
      | none => simp [allTagValuesAux, h1, h2]
      | some e =>
        simp only [allTagValuesAux, h1, h2, List.length_cons]
        obtain ⟨hps, hsl, -, -⟩ := findFrom_some h1
        obtain ⟨hse, hel, hocc, -⟩ := findFrom_some h2
        have hcl := occursAt_length hc hocc
        have hol : 0 < o.length := List.length_pos.mpr ho
        have hrec := ih (e + c.length)
        have hcpos : 0 < c.length := List.length_pos.mpr hc
        omega

theorem segBlocksAux_length (raw : List Char) :
    ∀ (f p : Nat), (segBlocksAux raw f p).length ≤ raw.length - p := by
  intro f
  induction f with
  | zero => intro p; simp [segBlocksAux]
  | succ f ih =>
    intro p
    cases h1 : findFrom openBL raw p with
    | none => simp [segBlocksAux, h1]
    | some ps =>
      cases h2 : findFrom closeBL raw ps with
      | none => simp [segBlocksAux, h1, h2]
      | some pc =>
        simp only [segBlocksAux, h1, h2, List.length_cons]
        obtain ⟨hps, -, -, -⟩ := findFrom_some h1
        obtain ⟨hpc, -, hocc, -⟩ := findFrom_some h2
        have hcl := occursAt_length (by decide : closeBL ≠ []) hocc
        have h12 : closeBL.length = 12 := by decide
        have hrec := ih (pc + 12)
        omega

theorem cutReponse_length (raw : List Char) :
    (cutReponse raw).length ≤ raw.length := by
  unfold cutReponse
  cases h : findFrom "</REPONSE>".toList raw 0 with
  | none => exact Nat.le_refl _
  | some e => simp

/-- C10: each successful open/close lookup leaves the next scan position
strictly beyond the previous one (past the consumed close tag), so the
`all_tag_values` loop and the block-segmentation loop are bounded by the
input length, and `parse_xml` is total with `blocksScanned` bounded by
the input length. -/
theorem claim_C10 :
    (∀ (xml tag : List Char) (p s e : Nat),
        findFrom (tagOpen tag) xml p = some s →
        findFrom (tagClose tag) xml (s + (tagOpen tag).length) = some e →
        p < e + (tagClose tag).length) ∧
    (∀ xml tag : List Char, (all_tag_values xml tag).length ≤ xml.length) ∧
    (∀ (raw : List Char) (p ps pc : Nat), findFrom openBL raw p = some ps →
        findFrom closeBL raw ps = some pc → p < pc + closeBL.length) ∧
    (∀ raw : List Char, (segBlocks raw).length ≤ raw.length) ∧
    (∀ raw : List Char, (parse_xml raw).scanned ≤ raw.length) := by
  refine ⟨?_, ?_, ?_, ?_, ?_⟩
  · intro xml tag p s e h1 h2
    obtain ⟨hps, -, -, -⟩ := findFrom_some h1
    obtain ⟨hse, -, -, -⟩ := findFrom_some h2
    have : 0 < (tagClose tag).length := by simp [tagClose]
    have : 0 < (tagOpen tag).length := by simp [tagOpen]
    omega
  · intro xml tag
    have h := allTagValuesAux_length xml (tagOpen tag) (tagClose tag)
      (by simp [tagOpen]) (by simp [tagClose]) (xml.length + 1) 0
    unfold all_tag_values
    omega
  · intro raw p ps pc h1 h2
    obtain ⟨hps, -, -, -⟩ := findFrom_some h1
    obtain ⟨hpc, -, -, -⟩ := findFrom_some h2
    have : 0 < closeBL.length := by decide
    omega
  · intro raw
    have h := segBlocksAux_length raw (raw.length + 1) 0
    unfold segBlocks
    omega
  · intro raw
    have h1 := (parse_xml_run raw).2.2.1
    have h2 := segBlocksAux_length (cutReponse raw) ((cutReponse raw).length + 1) 0
    have h3 := cutReponse_length raw
    unfold segBlocks at h1
    omega

/-- C10 witness: the two advancement clauses at concrete lookups. -/
theorem claim_C10_witness :
    (0 : Nat) < 4 + (tagClose "A".toList).length ∧
    (0 : Nat) < 11 + closeBL.length :=
  ⟨claim_C10.1 "<A>x</A>".toList "A".toList 0 0 4 (by decide) (by decide),
   claim_C10.2.2.1 "<PROGRAMME></PROGRAMME>".toList 0 0 11
     (by decide) (by decide)⟩

/-! ### C9: first-occurrence semantics of the tag locator -/

/-- C9: `tag_value` takes the decoded span between the FIRST literal
occurrence of the open tag and the FIRST occurrence of the close tag
after it, yields the empty value when either delimiter is missing, and
respects no nesting (demonstrated on a recurring tag). -/
theorem claim_C9 :
    (∀ xml tag : List Char,
      ((∀ i, ¬ occursAt (tagOpen tag) xml i) → tag_value xml tag = []) ∧
      (∀ s, occursAt (tagOpen tag) xml s →
        (∀ j, j < s → ¬ occursAt (tagOpen tag) xml j) →
        ((∀ e, s + (tagOpen tag).length ≤ e →
            ¬ occursAt (tagClose tag) xml e) → tag_value xml tag = []) ∧
        (∀ e, s + (tagOpen tag).length ≤ e → occursAt (tagClose tag) xml e →
          (∀ j, s + (tagOpen tag).length ≤ j → j < e →
            ¬ occursAt (tagClose tag) xml j) →
          tag_value xml tag =
            decode_xml (slice xml (s + (tagOpen tag).length) e)))) ∧
    tag_value "<T><T>inner</T></T>".toList "T".toList = "<T>inner".toList := by
  refine ⟨?_, by decide⟩
  intro xml tag
  constructor
  · intro h
    have hfo : findFrom (tagOpen tag) xml 0 = none :=
      findFrom_eq_none (fun m _ => h m)
    simp [tag_value, hfo]
  · intro s hs hmin
    have hfo : findFrom (tagOpen tag) xml 0 = some s :=
      findFrom_eq_some (by simp [tagOpen]) (Nat.zero_le s) hs
        (fun m _ hm => hmin m hm)
    constructor
    · intro hnone
      have hfc : findFrom (tagClose tag) xml (s + (tagOpen tag).length)
          = none := findFrom_eq_none (fun m hm => hnone m hm)
      simp [tag_value, hfo, hfc]
    · intro e he hocc hmin2
      have hfc : findFrom (tagClose tag) xml (s + (tagOpen tag).length)
          = some e :=
        findFrom_eq_some (by simp [tagClose]) he hocc hmin2
      simp [tag_value, hfo, hfc]

/-- C9 witness: the found-tag clause at a concrete document. -/
theorem claim_C9_witness :
    tag_value "<A>hi</A>".toList "A".toList =
      decode_xml (slice "<A>hi</A>".toList (0 + (tagOpen "A".toList).length) 5) := by
  have h := (claim_C9.1 "<A>hi</A>".toList "A".toList).2 0 (by decide)
    (fun j hj => absurd hj (Nat.not_lt_zero j))
  exact h.2 5 (by decide) (by decide)
    (by intro j h1 h2; interval_cases j <;> decide)

/-! ### C2: image extraction -/

/-- The record-side image rule actually implemented: the FIRST collected
URL value, kept only when non-empty. -/
def imageFromUrls : List (List Char) → List Char
  | [] => noImageL
  | u :: _ => if u.isEmpty then noImageL else u

/-- From the claim's words: the first NON-empty URL value inside the
perspectives sub-block, `"NO IMAGE"` when there is none. -/
def imagePerClaim (p : List Char) : List Char :=
  match findFrom perspOpenL p 0 with
  | none => noImageL
  | some s =>
    match findFrom perspCloseL p s with
    | none => noImageL
    | some e =>
      match (all_tag_values (slice p s (e + 15)) urlTagL).filter
          (fun u => !u.isEmpty) with
      | [] => noImageL
      | u :: _ => u

def docC2 : List Char :=
  "<PERSPECTIVES><URL></URL><URL>x</URL></PERSPECTIVES>".toList

/-- C2 counterexample: `docC2`'s perspectives sub-block holds an empty
first URL value followed by the non-empty value `"x"`; the claim's
first-non-empty rule picks `"x"`, but `get_program_image` tests only the
first collected value and returns the sentinel. -/
theorem claim_C2_cex :
    get_program_image docC2 = noImageL ∧
    imagePerClaim docC2 = "x".toList ∧
    get_program_image docC2 ≠ imagePerClaim docC2 := by decide

/-- C2 amended: the image equals the FIRST URL value collected inside
the perspectives sub-block (delimited by the first open tag and the
first close tag after it) provided that first value is non-empty; when
the sub-block is absent or unclosed, has no URL value, or its first URL
value is empty, the image is the sentinel `"NO IMAGE"`. -/
theorem claim_C2 (p : List Char) :
    ((∀ i, ¬ occursAt perspOpenL p i) →
        get_program_image p = noImageL) ∧
    (∀ s, occursAt perspOpenL p s →
      (∀ j, j < s → ¬ occursAt perspOpenL p j) →
      ((∀ e, s ≤ e → ¬ occursAt perspCloseL p e) →
          get_program_image p = noImageL) ∧
      (∀ e, s ≤ e → occursAt perspCloseL p e →
        (∀ j, s ≤ j → j < e → ¬ occursAt perspCloseL p j) →
        get_program_image p =
          imageFromUrls (all_tag_values (slice p s (e + 15)) urlTagL))) := by
  constructor
  · intro h
    have hfo : findFrom perspOpenL p 0 = none :=
      findFrom_eq_none (fun m _ => h m)
    simp [get_program_image, hfo]
  · intro s hs hmin
    have hfo : findFrom perspOpenL p 0 = some s :=
      findFrom_eq_some (by decide) (Nat.zero_le s) hs (fun m _ hm => hmin m hm)
    constructor
    · intro hnone
      have hfc : findFrom perspCloseL p s = none :=
        findFrom_eq_none (fun m hm => hnone m hm)
      simp [get_program_image, hfo, hfc]
    · intro e he hocc hmin2
      have hfc : findFrom perspCloseL p s = some e :=
        findFrom_eq_some (by decide) he hocc hmin2
      cases hU : all_tag_values (slice p s (e + 15)) urlTagL with
      | nil => simp [get_program_image, hfo, hfc, hU, imageFromUrls]
      | cons u rest => simp [get_program_image, hfo, hfc, hU, imageFromUrls]

/-- C2 witness: the found-sub-block clause at a concrete document. -/
theorem claim_C2_witness :
    get_program_image "<PERSPECTIVES><URL>y</URL></PERSPECTIVES>".toList =
      imageFromUrls (all_tag_values
        (slice "<PERSPECTIVES><URL>y</URL></PERSPECTIVES>".toList 0 (26 + 15))
        urlTagL) := by
  have h := (claim_C2 "<PERSPECTIVES><URL>y</URL></PERSPECTIVES>".toList).2 0
    (by decide) (fun j hj => absurd hj (Nat.not_lt_zero j))
  exact h.2 26 (by decide) (by decide)
    (by intro j h1 h2; interval_cases j <;> decide)

/-! ### C6: the arguments fallback chain -/

/-- From the claim's words: the first non-empty value in an ordered
candidate list wins, the cleaned name is the next fallback, and the
literal `"N/A"` is the final default. -/
def pickFallback (vs : List (List Char)) (name : List Char) : List Char :=
  match vs.find? (fun v => !v.isEmpty) with
  | some v => v
  | none => if clean_text name = [] then naL else clean_text name

/-- From the claim's words: join non-empty highlights and clean;
otherwise first non-empty cleaned fallback tag in order; otherwise the
cleaned name; otherwise the literal `"N/A"`. -/
def argumentsSpec (p name : List Char) : List Char :=
  if get_points_forts p = [] then
    pickFallback
      (([tag_value p "PROMESSE_PROGRAMME".toList,
         tag_value p "DESCRIPTIF_COURT".toList,
         tag_value p "DESCRIPTIF_LONG".toList,
         tag_value p "DESCRIPTIF_CENTRE_D_APPEL".toList]).map clean_text) name
  else clean_text (joinSep sepL (get_points_forts p))

theorem firstNonEmptyCleaned_eq (cs : List (List Char)) (name : List Char) :
    firstNonEmptyCleaned (cs ++ [name]) =
      pickFallback (cs.map clean_text) name := by
  induction cs with
  | nil =>
    unfold pickFallback
    simp only [List.map_nil, List.find?_nil]
    show (if (clean_text name).isEmpty then firstNonEmptyCleaned []
          else clean_text name)
        = (if clean_text name = [] then naL else clean_text name)
    by_cases h : clean_text name = []
    · have h' : (clean_text name).isEmpty = true := by simp [h]
      rw [if_pos h', if_pos h]
      rfl
    · have h' : (clean_text name).isEmpty = false := by
        simp [List.isEmpty_iff, h]
      rw [if_neg (by simp [h']), if_neg h]
  | cons c cs ih =>
    have hcons : firstNonEmptyCleaned (c :: (cs ++ [name])) =
        if (clean_text c).isEmpty then firstNonEmptyCleaned (cs ++ [name])
        else clean_text c := rfl
    rw [List.cons_append, hcons, List.map_cons]
    unfold pickFallback
    by_cases h : clean_text c = []
    · have h' : (clean_text c).isEmpty = true := by simp [h]
      rw [if_pos h', List.find?_cons_of_neg _ (by simp [h'])]
      exact ih
    · have h' : (clean_text c).isEmpty = false := by
        simp [List.isEmpty_iff, h]
      rw [if_neg (by simp [h']), List.find?_cons_of_pos _ (by simp [h'])]

/-- C6: `build_program_arguments` follows exactly the claimed chain —
non-empty highlights list joined with `" | "` then cleaned; else the
first non-empty cleaned value among the four fallback tags in order;
else the cleaned name; else the literal `"N/A"`. -/
theorem claim_C6 (p name : List Char) :
    build_program_arguments p name = argumentsSpec p name := by
  unfold build_program_arguments argumentsSpec
  by_cases h0 : get_points_forts p = []
  · have h0' : (get_points_forts p).isEmpty = true := by simp [h0]
    rw [if_pos h0', if_pos h0]
    have h := firstNonEmptyCleaned_eq
      [tag_value p "PROMESSE_PROGRAMME".toList,
       tag_value p "DESCRIPTIF_COURT".toList,
       tag_value p "DESCRIPTIF_LONG".toList,
       tag_value p "DESCRIPTIF_CENTRE_D_APPEL".toList] name
    exact h
  · have h0' : (get_points_forts p).isEmpty = false := by
      simp [List.isEmpty_iff, h0]
    rw [if_neg (by simp [h0']), if_neg h0]

/-! ### C3: decode idempotence -/

theorem replaceAllAux_id {pat rep : List Char} {a : Char}
    (hhead : pat.head? = some a) :
    ∀ (f : Nat) (s : List Char), a ∉ s → replaceAllAux pat rep f s = s := by
  intro f
  induction f with
  | zero => intro s _; rfl
  | succ f ih =>
    intro s hs
    cases s with
    | nil => rfl
    | cons b t =>
      have hab : a ≠ b := fun hEq => hs (hEq ▸ List.mem_cons_self b t)
      obtain ⟨pt, hpat⟩ : ∃ pt, pat = a :: pt := by
        cases pat with
        | nil => simp at hhead
        | cons q qt =>
          simp only [List.head?_cons, Option.some.injEq] at hhead
          exact ⟨qt, by rw [hhead]⟩
      have hpre : pat.isPrefixOf (b :: t) = false := by
        rw [hpat]
        simp [List.isPrefixOf, beq_eq_false_iff_ne.mpr hab]
      have hstep : replaceAllAux pat rep (f + 1) (b :: t) =
          if !pat.isEmpty && pat.isPrefixOf (b :: t) then
            rep ++ replaceAllAux pat rep f ((b :: t).drop pat.length)
          else b :: replaceAllAux pat rep f t := rfl
      rw [hstep, hpre]
      simp only [Bool.and_false, Bool.false_eq_true, if_false]
      rw [ih t (fun hm => hs (List.mem_cons_of_mem b hm))]

theorem replaceAll_id {pat rep s : List Char} {a : Char}
    (hhead : pat.head? = some a) (hs : a ∉ s) : replaceAll pat rep s = s :=
  replaceAllAux_id hhead s.length s hs

theorem cdataStripAux_id :
    ∀ (f : Nat) (s : List Char), '<' ∉ s → cdataStripAux f s = s := by
  intro f
  induction f with
  | zero => intro s _; rfl
  | succ f ih =>
    intro s hs
    cases s with
    | nil => rfl
    | cons b t =>
      have hab : '<' ≠ b := fun hEq => hs (hEq ▸ List.mem_cons_self b t)
      have hpre : cdataOpenL.isPrefixOf (b :: t) = false := by
        have hopen : cdataOpenL = '<' :: "![CDATA[".toList := rfl
        rw [hopen]
        simp [List.isPrefixOf, beq_eq_false_iff_ne.mpr hab]
      have hstep : cdataStripAux (f + 1) (b :: t) =
          if cdataOpenL.isPrefixOf (b :: t) then
            match findFrom cdataCloseL ((b :: t).drop 9) 0 with
            | some k =>
              ((b :: t).drop 9).take k ++ cdataStripAux f ((b :: t).drop (9 + k + 3))
            | none => b :: cdataStripAux f t
          else b :: cdataStripAux f t := rfl
      rw [hstep, hpre]
      simp only [Bool.false_eq_true, if_false]
      rw [ih t (fun hm => hs (List.mem_cons_of_mem b hm))]

theorem cdataStrip_id {s : List Char} (hs : '<' ∉ s) : cdataStrip s = s :=
  cdataStripAux_id s.length s hs

/-- The adjacency relation of a collapsed string: no two neighbouring
whitespace characters. -/
def wsRel (x y : Char) : Prop := isWS x = false ∨ isWS y = false

theorem wsCollapse_mem :
    ∀ (s : List Char) (ch : Char), ch ∈ wsCollapse s → ch = ' ' ∨ ch ∈ s
  | [], ch, h => by simp [wsCollapse] at h
  | [a], ch, h => by
    by_cases hw : isWS a = true
    · simp [wsCollapse, hw] at h
      exact Or.inl h
    · simp [wsCollapse, hw] at h
      exact Or.inr (by simp [h])
  | a :: b :: t, ch, h => by
    have hstep : wsCollapse (a :: b :: t) =
        if isWS a then
          if isWS b then wsCollapse (b :: t) else ' ' :: wsCollapse (b :: t)
        else a :: wsCollapse (b :: t) := rfl
    rw [hstep] at h
    by_cases ha : isWS a = true
    · by_cases hb : isWS b = true
      · rw [if_pos ha, if_pos hb] at h
        rcases wsCollapse_mem (b :: t) ch h with h1 | h1
        · exact Or.inl h1
        · exact Or.inr (List.mem_cons_of_mem a h1)
      · rw [if_pos ha, if_neg (by simp [hb])] at h
        rcases List.mem_cons.mp h with h1 | h1
        · exact Or.inl h1
        · rcases wsCollapse_mem (b :: t) ch h1 with h2 | h2
          · exact Or.inl h2
          · exact Or.inr (List.mem_cons_of_mem a h2)
    · rw [if_neg (by simp [ha])] at h
      rcases List.mem_cons.mp h with h1 | h1
      · exact Or.inr (h1 ▸ List.mem_cons_self a (b :: t))
      · rcases wsCollapse_mem (b :: t) ch h1 with h2 | h2
        · exact Or.inl h2
        · exact Or.inr (List.mem_cons_of_mem a h2)

theorem wsCollapse_head? :
    ∀ (b : Char) (t : List Char),
      (wsCollapse (b :: t)).head? = some (if isWS b then ' ' else b)
  | b, [] => by
    by_cases h : isWS b = true <;> simp [wsCollapse, h]
  | b, c :: t => by
    have hstep : wsCollapse (b :: c :: t) =
        if isWS b then
          if isWS c then wsCollapse (c :: t) else ' ' :: wsCollapse (c :: t)
        else b :: wsCollapse (c :: t) := rfl
    rw [hstep]
    by_cases hb : isWS b = true
    · by_cases hc : isWS c = true
      · rw [if_pos hb, if_pos hc, wsCollapse_head? c t]
        simp [hb, hc]
      · rw [if_pos hb, if_neg (by simp [hc])]
        simp [hb]
    · rw [if_neg (by simp [hb])]
      simp [hb]

theorem wsCollapse_chain : ∀ s : List Char, List.Chain' wsRel (wsCollapse s)
  | [] => by simp [wsCollapse]
  | [a] => by
    by_cases h : isWS a = true <;> simp [wsCollapse, h]
  | a :: b :: t => by
    have hstep : wsCollapse (a :: b :: t) =
        if isWS a then
          if isWS b then wsCollapse (b :: t) else ' ' :: wsCollapse (b :: t)
        else a :: wsCollapse (b :: t) := rfl
    rw [hstep]
    by_cases ha : isWS a = true
    · by_cases hb : isWS b = true
      · rw [if_pos ha, if_pos hb]
        exact wsCollapse_chain (b :: t)
      · rw [if_pos ha, if_neg (by simp [hb])]
        refine List.chain'_cons'.mpr ⟨?_, wsCollapse_chain (b :: t)⟩
        intro y hy
        rw [wsCollapse_head? b t] at hy
        simp only [Option.mem_def, Option.some.injEq] at hy
        have hb' : isWS b = false := by simpa using hb
        rw [← hy]
        exact Or.inr (by simp [hb'])
    · rw [if_neg (by simp [ha])]
      refine List.chain'_cons'.mpr ⟨?_, wsCollapse_chain (b :: t)⟩
      intro y hy
      exact Or.inl (by simpa using ha)

theorem wsCollapse_space :
    ∀ (s : List Char) (ch : Char), ch ∈ wsCollapse s → isWS ch = true →
      ch = ' '
  | [], ch, h, _ => by simp [wsCollapse] at h
  | [a], ch, h, hws => by
    by_cases hw : isWS a = true
    · simp [wsCollapse, hw] at h
      exact h
    · simp [wsCollapse, hw] at h
      rw [h] at hws
      exact absurd hws (by simp [hw])
  | a :: b :: t, ch, h, hws => by
    have hstep : wsCollapse (a :: b :: t) =
        if isWS a then
          if isWS b then wsCollapse (b :: t) else ' ' :: wsCollapse (b :: t)
        else a :: wsCollapse (b :: t) := rfl
    rw [hstep] at h
    by_cases ha : isWS a = true
    · by_cases hb : isWS b = true
      · rw [if_pos ha, if_pos hb] at h
        exact wsCollapse_space (b :: t) ch h hws
      · rw [if_pos ha, if_neg (by simp [hb])] at h
        rcases List.mem_cons.mp h with h1 | h1
        · exact h1
        · exact wsCollapse_space (b :: t) ch h1 hws
    · rw [if_neg (by simp [ha])] at h
      rcases List.mem_cons.mp h with h1 | h1
      · rw [h1] at hws
        exact absurd hws (by simp [ha])
      · exact wsCollapse_space (b :: t) ch h1 hws

theorem wsCollapse_fixpoint :
    ∀ s : List Char, List.Chain' wsRel s →
      (∀ ch ∈ s, isWS ch = true → ch = ' ') → wsCollapse s = s
  | [], _, _ => rfl
  | [a], _, hsp => by
    by_cases ha : isWS a = true
    · have : a = ' ' := hsp a (by simp) ha
      simp [wsCollapse, ha, this]
    · simp [wsCollapse, ha]
  | a :: b :: t, hch, hsp => by
    obtain ⟨hab, htail⟩ := List.chain'_cons.mp hch
    have hrec : wsCollapse (b :: t) = b :: t :=
      wsCollapse_fixpoint (b :: t) htail
        (fun ch hm hws => hsp ch (List.mem_cons_of_mem a hm) hws)
    have hstep : wsCollapse (a :: b :: t) =
        if isWS a then
          if isWS b then wsCollapse (b :: t) else ' ' :: wsCollapse (b :: t)
        else a :: wsCollapse (b :: t) := rfl
    rw [hstep]
    by_cases ha : isWS a = true
    · have hb : isWS b = false := by
        rcases hab with h | h
        · rw [ha] at h; cases h
        · exact h
      rw [if_pos ha, if_neg (by simp [hb]), hrec,
        hsp a (by simp) ha]
    · rw [if_neg (by simp [ha]), hrec]

theorem chain'_dropWhile (p : Char → Bool) :
    ∀ l : List Char, List.Chain' wsRel l →
      List.Chain' wsRel (l.dropWhile p)
  | [], h => h
  | a :: l, h => by
    rw [List.dropWhile_cons]
    by_cases hp : p a = true
    · rw [if_pos hp]
      exact chain'_dropWhile p l h.tail
    · rw [if_neg (by simp [hp])]
      exact h

theorem chain'_rev_ws {l : List Char} (h : List.Chain' wsRel l) :
    List.Chain' wsRel l.reverse := by
  rw [List.chain'_reverse]
  exact List.Chain'.imp (fun a b hab => Or.symm hab) h

theorem stripStr_chain {s : List Char} (h : List.Chain' wsRel s) :
    List.Chain' wsRel (stripStr s) := by
  unfold stripStr trimLeft
  exact chain'_rev_ws (chain'_dropWhile _ _ (chain'_rev_ws (chain'_dropWhile _ _ h)))

theorem stripStr_subset {s : List Char} {ch : Char} (h : ch ∈ stripStr s) :
    ch ∈ s := by
  simp only [stripStr, trimLeft, List.mem_reverse] at h
  have h2 := (List.dropWhile_sublist _).subset h
  rw [List.mem_reverse] at h2
  exact (List.dropWhile_sublist _).subset h2

theorem trimLeft_head (l : List Char) (x : Char)
    (hx : (trimLeft l).head? = some x) : isWS x = false := by
  have h := List.head?_dropWhile_not isWS l
  unfold trimLeft at hx
  rw [hx] at h
  exact h

theorem suffix_getLast? {v l : List Char} (h : v <:+ l) (hv : v ≠ []) :
    v.getLast? = l.getLast? := by
  obtain ⟨pre, rfl⟩ := h
  rw [List.getLast?_append]
  cases hL : v.getLast? with
  | none => exact absurd (List.getLast?_eq_none_iff.mp hL) hv
  | some a => rfl

theorem stripStr_head (s : List Char) (x : Char)
    (hx : (stripStr s).head? = some x) : isWS x = false := by
  unfold stripStr at hx
  rw [List.head?_reverse] at hx
  have hvne : trimLeft (trimLeft s).reverse ≠ [] := by
    intro hE
    rw [hE] at hx
    simp at hx
  have hsuf : trimLeft (trimLeft s).reverse <:+ (trimLeft s).reverse :=
    List.dropWhile_suffix _
  rw [suffix_getLast? hsuf hvne, List.getLast?_reverse] at hx
  exact trimLeft_head s x hx

theorem stripStr_getLast (s : List Char) (x : Char)
    (hx : (stripStr s).getLast? = some x) : isWS x = false := by
  unfold stripStr at hx
  rw [List.getLast?_reverse] at hx
  exact trimLeft_head _ x hx

theorem trimLeft_eq_self {l : List Char}
    (h : ∀ x, l.head? = some x → isWS x = false) : trimLeft l = l := by
  cases l with
  | nil => rfl
  | cons a t =>
    have := h a rfl
    unfold trimLeft
    rw [List.dropWhile_cons, if_neg (by simp [this])]

theorem stripStr_of_ends {l : List Char}
    (h1 : ∀ x, l.head? = some x → isWS x = false)
    (h2 : ∀ x, l.getLast? = some x → isWS x = false) : stripStr l = l := by
  unfold stripStr
  rw [trimLeft_eq_self h1,
    trimLeft_eq_self (fun x hx => h2 x (by rwa [List.head?_reverse] at hx))]
  exact List.reverse_reverse l

theorem decode_xml_plain {v : List Char} (hamp : '&' ∉ v) (hlt : '<' ∉ v) :
    decode_xml v = stripStr (wsCollapse v) := by
  unfold decode_xml
  rw [cdataStrip_id hlt,
    replaceAll_id (show ("&lt;".toList).head? = some '&' from rfl) hamp,
    replaceAll_id (show ("&gt;".toList).head? = some '&' from rfl) hamp,
    replaceAll_id (show ("&amp;".toList).head? = some '&' from rfl) hamp,
    replaceAll_id (show ("&quot;".toList).head? = some '&' from rfl) hamp,
    replaceAll_id (show ("&#39;".toList).head? = some '&' from rfl) hamp]

/-- C3 counterexample: decoding is NOT idempotent on arbitrary input —
`"&amp;lt;"` decodes once to `"&lt;"` and a second application decodes
further to `"<"`. -/
theorem claim_C3_cex :
    decode_xml (decode_xml "&amp;lt;".toList) ≠ decode_xml "&amp;lt;".toList ∧
    decode_xml "&amp;lt;".toList = "&lt;".toList ∧
    decode_xml (decode_xml "&amp;lt;".toList) = "<".toList := by decide

/-- C3 amended: the decoder is idempotent on every input whose characters
avoid `'&'` and `'<'` (no entity or CDATA material, so one decode only
normalizes whitespace, which is a fixed point of a second decode); on
general input a decoded entity can expose a further entity, so
`decode(decode x)` may differ from `decode x`. -/
theorem claim_C3 (x : List Char) (hx : ∀ ch ∈ x, ch ≠ '&' ∧ ch ≠ '<') :
    decode_xml (decode_xml x) = decode_xml x := by
  have hamp : '&' ∉ x := fun hmem => (hx _ hmem).1 rfl
  have hlt : '<' ∉ x := fun hmem => (hx _ hmem).2 rfl
  rw [decode_xml_plain hamp hlt]
  have hsub : ∀ ch ∈ stripStr (wsCollapse x), ch = ' ' ∨ ch ∈ x :=
    fun ch hch => wsCollapse_mem x ch (stripStr_subset hch)
  have hamp2 : '&' ∉ stripStr (wsCollapse x) := by
    intro hm
    rcases hsub _ hm with h | h
    · cases h
    · exact hamp h
  have hlt2 : '<' ∉ stripStr (wsCollapse x) := by
    intro hm
    rcases hsub _ hm with h | h
    · cases h
    · exact hlt h
  rw [decode_xml_plain hamp2 hlt2]
  rw [wsCollapse_fixpoint (stripStr (wsCollapse x))
    (stripStr_chain (wsCollapse_chain x))
    (fun ch hch hws => wsCollapse_space x ch (stripStr_subset hch) hws)]
  exact stripStr_of_ends
    (fun y hy => stripStr_head (wsCollapse x) y hy)
    (fun y hy => stripStr_getLast (wsCollapse x) y hy)

/-- C3 witness: the amended idempotence at a concrete whitespace-laden
entity-free string. -/
theorem claim_C3_witness :
    decode_xml (decode_xml "  a  b ".toList) = decode_xml "  a  b ".toList :=
  claim_C3 "  a  b ".toList (by decide)

end BI
